import Mathlib

set_option maxHeartbeats 1000000

/-! Shallow embedding of the pipeline-bot repository (src/pipeline.py and
src/bot.py).  The Google Sheets backend is modelled as a rectangular grid of
text cells (`Grid`): `values().get` returns the grid, `values().update` on an
A1 cell writes one cell (extending the sheet as the backend does), and
`values().append` adds one final row.  Python dicts with string keys are
modelled as insertion-ordered association lists whose lookup takes the last
binding, matching Python assignment overwriting earlier bindings. -/

/-- Python dict lookup over an insertion-ordered association list: the
binding written last wins, as a later Python assignment overwrites an
earlier one. -/
def dlookup : List (String × String) → String → Option String
  | [], _ => none
  | (k, v) :: rest, key =>
    match dlookup rest key with
    | some w => some w
    | none => if k = key then some v else none

/-- Python `d.get(key, dflt)` for a string-valued dict. -/
def dget (d : List (String × String)) (key dflt : String) : String :=
  (dlookup d key).getD dflt

/-- The sheet: a list of rows, each a list of text cells.  Row 1 of the
sheet is index 0 here. -/
abbrev Grid := List (List String)

def padList {α : Type} (l : List α) (n : Nat) (x : α) : List α :=
  l ++ List.replicate (n - l.length) x

/-- One cell write, as performed by `sheets.values().update` on the A1 cell
`{col}{row}` in pipeline.py: row number `row` is sheet row `i + 1`, the
column letter is column index `j`.  The backend materialises missing rows
and cells as empty text. -/
def setCell (g : Grid) (i j : Nat) (v : String) : Grid :=
  (padList g (i + 1) []).set i ((padList (g.getD i []) (j + 1) "").set j v)

/-- Reading one cell of the grid; absent cells read as empty text. -/
def getCell (g : Grid) (i j : Nat) : String :=
  (g.getD i []).getD j ""

/-- pipeline.py `COLUMNS`: the fixed field-to-column-letter mapping. -/
def COLUMNS : List (String × String) :=
  [("company_name", "A"), ("contact_name", "B"), ("contact_email", "C"),
   ("contact_phone", "D"), ("project_description", "E"), ("date_entered", "F"),
   ("stage", "G"), ("stage_date", "H"), ("notes", "I"), ("estimated_mrr", "J"),
   ("priority", "K"), ("next_action_date", "L"), ("next_action", "M"),
   ("lost_reason", "N")]

/-- pipeline.py `STAGES`. -/
def STAGES : List String :=
  ["Lead", "Discovery", "Build POC", "Proposal", "Negotiation", "Won", "Lost"]

/-- Column letter to 0-based column index (A is 0), the addressing the
backend applies to the A1 notation built in update_deal. -/
def colLetterIdx (l : String) : Nat :=
  (l.toList.headD 'A').toNat - 'A'.toNat

/-- The column index a field name is written to, if the field is in
`COLUMNS`. -/
def colOfField (f : String) : Option Nat :=
  match List.lookup f COLUMNS with
  | some letter => some (colLetterIdx letter)
  | none => none

/-- Python `str.lower()` (character-wise, as for the ASCII data this system
handles). -/
def pyLower (s : String) : String :=
  String.mk (s.data.map Char.toLower)

/-- pipeline.py `normalize_header`: `header.lower().replace(' ', '_')`,
lowercasing and then replacing each space (a one-character pattern, so the
replacement is character-wise). -/
def normalize_header (h : String) : String :=
  String.mk ((h.data.map Char.toLower).map (fun c => if c = ' ' then '_' else c))

/-- One deal as built by get_all_deals: the Python dict
`{'row_number': i, header_1: cell_1, ...}`.  The numeric `row_number` entry
is kept as a separate structure field; the header-indexed text entries are
the association list `fields`. -/
structure Deal where
  row_number : Nat
  fields : List (String × String)
deriving DecidableEq, Repr, Inhabited

/-- Python `deal.get(key, dflt)` on the header-indexed entries. -/
def Deal.get (d : Deal) (key dflt : String) : String :=
  dget d.fields key dflt

/-- The inner loop of get_all_deals: `deal[header] = row[j] if j < len(row)
else ''` for each header position, i.e. a positional zip padding short rows
with empty text. -/
def dealFields : List String → List String → List (String × String)
  | [], _ => []
  | h :: hs, [] => (h, "") :: dealFields hs []
  | h :: hs, c :: cs => (h, c) :: dealFields hs cs

/-- pipeline.py `get_all_deals`: row 1 is the header row (normalized), each
later row becomes one deal carrying its 1-based sheet row number
(`enumerate(values[1:], start=2)`). -/
def get_all_deals (g : Grid) : List Deal :=
  match g with
  | [] => []
  | headerRow :: rows =>
    (rows.enum).map (fun kr =>
      { row_number := kr.1 + 2,
        fields := dealFields (headerRow.map normalize_header) kr.2 })

/-- Python substring test `needle in hay` for strings. -/
def pyInStr (needle hay : String) : Bool :=
  (List.range (hay.toList.length + 1)).any
    (fun i => needle.toList.isPrefixOf (hay.toList.drop i))

/-- The search loop of pipeline.py `find_deal`: first deal whose
company_name contains the lowercased query, else None. -/
def findLoop (companyLower : String) : List Deal → Option Deal
  | [] => none
  | d :: ds =>
    if pyInStr companyLower (pyLower (d.get "company_name" "")) then some d
    else findLoop companyLower ds

/-- pipeline.py `find_deal`: case-insensitive substring match over all
deals, first match in row order. -/
def find_deal (company_name : String) (g : Grid) : Option Deal :=
  findLoop (pyLower company_name) (get_all_deals g)

/-- Python `repr` of a quoted string (escape-free content suffices for the
values this system handles). -/
def pyQuote (s : String) : String := "\x27" ++ s ++ "\x27"

/-- Python `str` of a str-to-str dict, as interpolated by the f-string in
update_deal. -/
def pyDictRepr (d : List (String × String)) : String :=
  "\x7b" ++ String.intercalate ", " (d.map (fun kv => pyQuote kv.1 ++ ": " ++ pyQuote kv.2)) ++ "\x7d"

/-- The update loop of pipeline.py `update_deal`: each update is one cell
write at the deal's row; a field outside COLUMNS is skipped (`continue`). -/
def applyUpdates (rowNum : Nat) (updates : List (String × String)) (g : Grid) : Grid :=
  updates.foldl (fun acc fv =>
    match colOfField fv.1 with
    | none => acc
    | some j => setCell acc (rowNum - 1) j fv.2) g

/-- pipeline.py `update_deal`: resolve the company, then write each known
field's cell; returns the new grid and the returned message string. -/
def update_deal (company_name : String) (updates : List (String × String)) (g : Grid) :
    Grid × String :=
  match find_deal company_name g with
  | none => (g, "Could not find a deal for " ++ pyQuote company_name)
  | some deal =>
    (applyUpdates deal.row_number updates g,
     "Updated " ++ company_name ++ ": " ++ pyDictRepr updates)

/-- The fixed column-order field list of pipeline.py `add_deal`. -/
def addFieldOrder : List String :=
  ["company_name", "contact_name", "contact_email", "contact_phone",
   "project_description", "date_entered", "stage", "stage_date",
   "notes", "estimated_mrr", "priority", "next_action_date",
   "next_action", "lost_reason"]

/-- pipeline.py `add_deal`: build the row in fixed column order with empty
text for unset fields and append it; `deal_data.get('company_name')`
interpolates as None when absent. -/
def add_deal (deal_data : List (String × String)) (g : Grid) : Grid × String :=
  let row := addFieldOrder.map (fun f => dget deal_data f "")
  (g ++ [row], "Added new deal: " ++ (dlookup deal_data "company_name").getD "None")

/-- Python truthiness of an optional string (`if stage:`): None and the
empty string are falsy. -/
def pyTruthy : Option String → Bool
  | none => false
  | some s => !s.isEmpty

/-- pipeline.py `list_deals`: all deals, filtered by case-insensitive stage
equality only when the stage argument is truthy. -/
def list_deals (stage : Option String) (g : Grid) : List Deal :=
  let deals := get_all_deals g
  if pyTruthy stage then
    deals.filter (fun d => pyLower (d.get "stage" "") == pyLower (stage.getD ""))
  else deals

/-- Python `dict.setdefault(k, v)`: insert the binding only when the key is
absent. -/
def setdefault (d : List (String × String)) (k v : String) : List (String × String) :=
  if (d.map Prod.fst).contains k then d else d ++ [(k, v)]

/-- The add branch of bot.py `execute_action`: default date_entered,
stage_date (to today) and stage (to Lead) via setdefault, then add_deal. -/
def executeAdd (deal_data : List (String × String)) (today : String) (g : Grid) :
    Grid × String :=
  let d1 := setdefault deal_data "date_entered" today
  let d2 := setdefault d1 "stage_date" today
  let d3 := setdefault d2 "stage" "Lead"
  add_deal d3 g

/-! Model of JSON values and of `json.loads` (the RFC 8259 grammar over
lists of characters).  A numeric literal is kept as its lexeme; a `\uXXXX`
escape denotes the scalar with that code (surrogate pairing is irrelevant
to the texts this system handles). -/

inductive Json where
  | null : Json
  | bool : Bool → Json
  | num : List Char → Json
  | str : List Char → Json
  | arr : List Json → Json
  | obj : List (List Char × Json) → Json
deriving Inhabited

/-- JSON whitespace. -/
def jws (c : Char) : Bool := c = ' ' || c = '\t' || c = '\n' || c = '\r'

def skipJws (l : List Char) : List Char := l.dropWhile jws

/-- Single-character JSON string escapes. -/
def escChar (e : Char) : Option Char :=
  if e = '"' then some '"'
  else if e = '\\' then some '\\'
  else if e = '/' then some '/'
  else if e = 'b' then some (Char.ofNat 8)
  else if e = 'f' then some (Char.ofNat 12)
  else if e = 'n' then some '\n'
  else if e = 'r' then some '\r'
  else if e = 't' then some '\t'
  else none

def isHexCh (c : Char) : Bool :=
  c.isDigit || ('a' ≤ c && c ≤ 'f') || ('A' ≤ c && c ≤ 'F')

def hexVal (c : Char) : Nat :=
  if c.isDigit then c.toNat - 48
  else if 'a' ≤ c && c ≤ 'f' then c.toNat - 87
  else c.toNat - 55

/-- Body of a JSON string literal after its opening quote: the decoded
characters and the remainder after the closing quote. -/
def strBody : List Char → Option (List Char × List Char)
  | [] => none
  | c :: rest =>
    if c = '"' then some ([], rest)
    else if c = '\\' then
      match rest with
      | [] => none
      | e :: rest2 =>
        if e = 'u' then
          match rest2 with
          | h1 :: h2 :: h3 :: h4 :: rest3 =>
            if isHexCh h1 && isHexCh h2 && isHexCh h3 && isHexCh h4 then
              match strBody rest3 with
              | some (cs, r) =>
                some (Char.ofNat (((hexVal h1 * 16 + hexVal h2) * 16 + hexVal h3) * 16 + hexVal h4) :: cs, r)
              | none => none
            else none
          | _ => none
        else
          match escChar e with
          | some ec =>
            match strBody rest2 with
            | some (cs, r) => some (ec :: cs, r)
            | none => none
          | none => none
    else if 32 ≤ c.toNat then
      match strBody rest with
      | some (cs, r) => some (c :: cs, r)
      | none => none
    else none

def takeDigs (l : List Char) : List Char := l.takeWhile Char.isDigit

def dropDigs (l : List Char) : List Char := l.dropWhile Char.isDigit

/-- Optional exponent part of a JSON number lexeme. -/
def parseExpPart (acc : List Char) (s : List Char) : Option (List Char × List Char) :=
  match s with
  | [] => some (acc, [])
  | c :: r =>
    if c = 'e' || c = 'E' then
      match r with
      | [] => none
      | d :: r2 =>
        if d = '+' || d = '-' then
          match r2 with
          | [] => none
          | d2 :: _ => if d2.isDigit then some (acc ++ c :: d :: takeDigs r2, dropDigs r2) else none
        else if d.isDigit then some (acc ++ c :: takeDigs r, dropDigs r)
        else none
    else some (acc, s)

/-- Optional fraction part, then exponent part, of a JSON number lexeme. -/
def parseFracPart (acc : List Char) (s : List Char) : Option (List Char × List Char) :=
  match s with
  | [] => some (acc, [])
  | c :: r =>
    if c = '.' then
      match r with
      | [] => none
      | d :: _ =>
        if d.isDigit then parseExpPart (acc ++ c :: takeDigs r) (dropDigs r)
        else none
    else parseExpPart acc s

/-- A JSON number token: optional minus, integer part without leading
zeros, optional fraction and exponent; yields the lexeme and remainder. -/
def parseNumber (s : List Char) : Option (List Char × List Char) :=
  match s with
  | [] => none
  | c :: r =>
    if c = '-' then
      match r with
      | [] => none
      | d :: r2 =>
        if d = '0' then parseFracPart [c, d] r2
        else if d.isDigit then parseFracPart (c :: d :: takeDigs r2) (dropDigs r2)
        else none
    else if c = '0' then parseFracPart [c] r
    else if c.isDigit then parseFracPart (c :: takeDigs r) (dropDigs r)
    else none

def LNULL : List Char := "null".data
def LTRUE : List Char := "true".data
def LFALSE : List Char := "false".data

mutual
/-- One JSON value at the head of the input (whitespace already skipped);
fuel-indexed, with fuel spent on each nested value. -/
def parseValue : Nat → List Char → Option (Json × List Char)
  | 0, _ => none
  | n + 1, s =>
    if LNULL.isPrefixOf s then some (.null, s.drop 4)
    else if LTRUE.isPrefixOf s then some (.bool true, s.drop 4)
    else if LFALSE.isPrefixOf s then some (.bool false, s.drop 5)
    else
      match s with
      | [] => none
      | c :: rest =>
        if c = '"' then
          match strBody rest with
          | some (cs, r) => some (.str cs, r)
          | none => none
        else if c = '[' then
          match skipJws rest with
          | [] => none
          | d :: r2 =>
            if d = ']' then some (.arr [], r2)
            else
              match parseElems n (d :: r2) with
              | some (es, r3) => some (.arr es, r3)
              | none => none
        else if c = '{' then
          match skipJws rest with
          | [] => none
          | d :: r2 =>
            if d = '}' then some (.obj [], r2)
            else
              match parseMembers n (d :: r2) with
              | some (ms, r3) => some (.obj ms, r3)
              | none => none
        else
          match parseNumber (c :: rest) with
          | some (lx, r) => some (.num lx, r)
          | none => none

/-- Comma-separated JSON values up to the closing bracket. -/
def parseElems : Nat → List Char → Option (List Json × List Char)
  | 0, _ => none
  | n + 1, s =>
    match parseValue n s with
    | none => none
    | some (v, r) =>
      match skipJws r with
      | [] => none
      | c :: r2 =>
        if c = ',' then
          match parseElems n (skipJws r2) with
          | some (vs, r3) => some (v :: vs, r3)
          | none => none
        else if c = ']' then some ([v], r2)
        else none

/-- Comma-separated string-keyed members up to the closing brace. -/
def parseMembers : Nat → List Char → Option (List (List Char × Json) × List Char)
  | 0, _ => none
  | n + 1, s =>
    match s with
    | [] => none
    | c :: rest =>
      if c = '"' then
        match strBody rest with
        | none => none
        | some (key, r1) =>
          match skipJws r1 with
          | [] => none
          | d :: r2 =>
            if d = ':' then
              match parseValue n (skipJws r2) with
              | none => none
              | some (v, r3) =>
                match skipJws r3 with
                | [] => none
                | e :: r4 =>
                  if e = ',' then
                    match parseMembers n (skipJws r4) with
                    | some (ms, r5) => some ((key, v) :: ms, r5)
                    | none => none
                  else if e = '}' then some ([(key, v)], r4)
                  else none
            else none
      else none
end

/-- `json.loads`: skip leading whitespace, read one value, and require the
remainder to be whitespace; `none` models the raised JSONDecodeError. -/
def jsonParse (s : List Char) : Option Json :=
  match parseValue (s.length + 1) (skipJws s) with
  | some (v, rest) => if rest.all jws then some v else none
  | none => none

/-- The backquote character. -/
def bq : Char := Char.ofNat 96

/-- Python `str.split("```")` on the three-backquote separator: scan left to
right, emitting a segment at each non-overlapping separator occurrence. -/
def splitGo : List Char → List Char → List (List Char)
  | a :: b :: c :: rest, acc =>
    if a = bq && b = bq && c = bq then acc.reverse :: splitGo rest []
    else splitGo (b :: c :: rest) (a :: acc)
  | a :: rest, acc => splitGo rest (a :: acc)
  | [], acc => [acc.reverse]

/-- Whether the three-backquote fence occurs anywhere in the text. -/
def hasFence : List Char → Bool
  | a :: b :: c :: rest => (a = bq && b = bq && c = bq) || hasFence (b :: c :: rest)
  | _ => false

/-- Python `str.strip()` whitespace. -/
def pyws (c : Char) : Bool :=
  c = ' ' || c = '\t' || c = '\n' || c = '\r' || c = Char.ofNat 11 || c = Char.ofNat 12

/-- Python `str.strip()`: remove leading and trailing whitespace. -/
def pyStrip (l : List Char) : List Char :=
  ((l.dropWhile pyws).reverse.dropWhile pyws).reverse

def FENCE : List Char := [bq, bq, bq]

/-- The response-normalisation step of bot.py `process_command`: strip the
reply text, and when it starts with a fence take the first fenced segment
(index 1 of the split), dropping a leading `json` tag (4 characters). -/
def stripFences (raw : List Char) : List Char :=
  let s := pyStrip raw
  if FENCE.isPrefixOf s then
    let part := (splitGo s []).getD 1 []
    if ("json".data).isPrefixOf part then part.drop 4 else part
  else s

/-- The parsing tail of bot.py `process_command`: `json.loads` of the
fence-stripped reply text; `none` models the raised JSONDecodeError, the
MalformedResponse failure of the spec. -/
def parseReply (raw : List Char) : Option Json :=
  jsonParse (stripFences raw)

/-- Python dict `.get(key)` on a parsed JSON object (the last binding wins,
as json.loads keeps the last duplicate key). -/
def jGet (o : List (List Char × Json)) (key : List Char) : Option Json :=
  match o with
  | [] => none
  | (k, v) :: rest =>
    match jGet rest key with
    | some w => some w
    | none => if k = key then some v else none

mutual
/-- Python `repr` of a parsed JSON value (as used inside containers). -/
def jPyRepr : Json → String
  | .null => "None"
  | .bool true => "True"
  | .bool false => "False"
  | .num lx => String.mk lx
  | .str s => pyQuote (String.mk s)
  | .arr es => "[" ++ String.intercalate ", " (jPyReprList es) ++ "]"
  | .obj ms => "\x7b" ++ String.intercalate ", " (jPyReprPairs ms) ++ "\x7d"

def jPyReprList : List Json → List String
  | [] => []
  | v :: vs => jPyRepr v :: jPyReprList vs

def jPyReprPairs : List (List Char × Json) → List String
  | [] => []
  | (k, v) :: ms => (pyQuote (String.mk k) ++ ": " ++ jPyRepr v) :: jPyReprPairs ms
end

/-- Python `str` of a parsed JSON value, as an f-string interpolates it. -/
def jPyStr : Json → String
  | .str s => String.mk s
  | v => jPyRepr v

/-- A parsed JSON object read back as the text-valued mapping handed to the
row store: string values are taken verbatim and numeric values as their
lexeme (the store is text-typed); any other value raises inside the branch
in the source. -/
def jStrFields : List (List Char × Json) → Option (List (String × String))
  | [] => some []
  | (k, v) :: ms =>
    match (match v with
           | .str s => some (String.mk s)
           | .num lx => some (String.mk lx)
           | _ => none) with
    | some sv =>
      match jStrFields ms with
      | some rest => some ((String.mk k, sv) :: rest)
      | none => none
    | none => none

/-- Marker for a Python exception raised inside an executor branch and
converted to an error reply by the top-level handler in bot.py `chat`
(`except Exception as e`); the message detail is not modelled. -/
def runtimeErr : String := "Error:"

/-- bot.py `execute_action` over a parsed JSON action object, today's date
and the grid: dispatch on the `action` entry, returning the grid after the
action and the reply string.  A missing or non-string `action` falls
through to the diagnostic else-branch, interpolating the Python value. -/
def execute_action (o : List (List Char × Json)) (today : String) (g : Grid) :
    Grid × String :=
  match jGet o "action".data with
  | some (.str a) =>
    if a = "update".data then
      match jGet o "company".data with
      | some (.str comp) =>
        match (match jGet o "updates".data with
               | none => some []
               | some (.obj ms) => jStrFields ms
               | some _ => none) with
        | some ups => update_deal (String.mk comp) ups g
        | none => (g, runtimeErr)
      | _ => (g, runtimeErr)
    else if a = "add".data then
      match jGet o "deal".data with
      | none => executeAdd [] today g
      | some (.obj ms) =>
        match jStrFields ms with
        | some dd => executeAdd dd today g
        | none => (g, runtimeErr)
      | some _ => (g, runtimeErr)
    else if a = "list".data then
      match (match jGet o "filter_stage".data with
             | none => some none
             | some .null => some none
             | some (.str s) => some (some (String.mk s))
             | some _ => none) with
      | none => (g, runtimeErr)
      | some fs =>
        let deals := list_deals fs g
        if deals.isEmpty then (g, "No deals found.")
        else
          (g, "Found " ++ toString deals.length ++ " deal(s):\n" ++
              String.join (deals.map (fun d =>
                "  • " ++ (dlookup d.fields "company_name").getD "None" ++ ": " ++
                (dlookup d.fields "stage").getD "None" ++
                (match dlookup d.fields "next_action" with
                 | some na => if na ≠ "" then " (Next: " ++ na ++ ")" else ""
                 | none => "") ++ "\n")))
    else if a = "clarify".data then
      (g, "Question: " ++ jPyStr ((jGet o "message".data).getD Json.null))
    else (g, "Unknown action: " ++ String.mk a)
  | some j => (g, "Unknown action: " ++ jPyStr j)
  | none => (g, "Unknown action: None")

/-- Whether a field name is in the fixed COLUMNS mapping
(`field in COLUMNS`). -/
def knownField (f : String) : Bool :=
  (COLUMNS.map Prod.fst).contains f

/-- The last update entry whose field targets column `j`, i.e. the value
the update loop leaves in that column of the deal's row (if any). -/
def lastWrite : List (String × String) → Nat → Option String
  | [], _ => none
  | (f, v) :: rest, j =>
    match lastWrite rest j with
    | some w => some w
    | none =>
      match colOfField f with
      | some j' => if j' = j then some v else none
      | none => none

/-- A reply consisting of a JSON text wrapped in a markdown code fence
tagged `json`. -/
def fenceWrap (t : List Char) : List Char :=
  "```json\n".data ++ t ++ "\n```".data

/-- Concrete fixture: the canonical header row of the sheet. -/
def tHdr : List String :=
  ["Company Name", "Contact Name", "Contact Email", "Contact Phone",
   "Project Description", "Date Entered", "Stage", "Stage Date",
   "Notes", "Estimated MRR", "Priority", "Next Action Date",
   "Next Action", "Lost Reason"]

/-- Concrete fixture: one populated deal row. -/
def tRowAcme : List String :=
  ["Acme Corp", "Jo", "jo@acme.com", "555", "POC", "2024-01-02", "Lead",
   "2024-01-02", "note", "100", "High", "2024-02-01", "call", ""]

/-- Concrete fixture: a store with the header row and one deal. -/
def gAcme : Grid := [tHdr, tRowAcme]

/-- The query occurs in the deal's stored company name as a
case-insensitive substring. -/
def cMatch (q : String) (d : Deal) : Prop :=
  ∃ l r, (pyLower (d.get "company_name" "")).data = l ++ (pyLower q).data ++ r

/-- Concrete fixture: the deal that get_all_deals builds from `gAcme`. -/
def dealAcme : Deal :=
  { row_number := 2, fields := dealFields (tHdr.map normalize_header) tRowAcme }


/-! Helper lemmas about the Python-dict model. -/

theorem dlookup_cons (ka va k' : String) (rest : List (String × String)) :
    dlookup ((ka, va) :: rest) k'
      = match dlookup rest k' with
        | some w => some w
        | none => if ka = k' then some va else none := rfl

theorem dlookup_append_single (d : List (String × String)) (k v k' : String) :
    dlookup (d ++ [(k, v)]) k' = if k = k' then some v else dlookup d k' := by
  induction d with
  | nil => simp [dlookup]
  | cons a rest ih =>
    obtain ⟨ka, va⟩ := a
    rw [List.cons_append, dlookup_cons, ih, dlookup_cons]
    by_cases h : k = k'
    · simp [h]
    · simp [h]

theorem contains_keys_eq (tbl : List (String × String)) (f : String) :
    (tbl.map Prod.fst).contains f = (List.lookup f tbl).isSome := by
  induction tbl with
  | nil => simp [List.lookup]
  | cons a rest ih =>
    obtain ⟨k, v⟩ := a
    by_cases h : f = k
    · simp [List.lookup, h]
    · have h1 : (f == k) = false := by simpa using h
      have h2 : (k == f) = false := beq_eq_false_iff_ne.2 fun hk => h hk.symm
      simp only [List.map_cons, List.contains_cons, h1, Bool.false_or, List.lookup, h2]
      rw [ih]

theorem dlookup_isSome_iff (d : List (String × String)) (k : String) :
    (dlookup d k).isSome = true ↔ k ∈ d.map Prod.fst := by
  induction d with
  | nil => simp [dlookup]
  | cons a rest ih =>
    obtain ⟨ka, va⟩ := a
    rw [dlookup_cons]
    simp only [List.map_cons, List.mem_cons]
    cases h : dlookup rest k with
    | some w =>
      have : k ∈ rest.map Prod.fst := ih.1 (by simp [h])
      simp [this]
    | none =>
      have hr : ¬ k ∈ rest.map Prod.fst := fun hm => by
        rw [← ih] at hm
        simp [h] at hm
      by_cases hk : ka = k <;> simp [hk, hr]
      exact fun hkk => hk hkk.symm

theorem dlookup_none_iff (d : List (String × String)) (k : String) :
    dlookup d k = none ↔ ¬ k ∈ d.map Prod.fst := by
  rw [← dlookup_isSome_iff]
  cases dlookup d k <;> simp

theorem dlookup_contains_eq (d : List (String × String)) (k : String) :
    (d.map Prod.fst).contains k = (dlookup d k).isSome := by
  cases h : (dlookup d k).isSome with
  | true =>
    have := (dlookup_isSome_iff d k).1 h
    simpa using this
  | false =>
    have : ¬ k ∈ d.map Prod.fst := fun hm => by
      rw [← dlookup_isSome_iff] at hm
      rw [h] at hm
      cases hm
    simpa using this

theorem setdefault_lookup_self (d : List (String × String)) (k w : String) :
    dlookup (setdefault d k w) k = some ((dlookup d k).getD w) := by
  unfold setdefault
  rw [dlookup_contains_eq]
  cases h : dlookup d k with
  | some v => simp [h]
  | none => simp [h, dlookup_append_single]

theorem setdefault_lookup_other (d : List (String × String)) (k w k' : String)
    (hne : k' ≠ k) : dlookup (setdefault d k w) k' = dlookup d k' := by
  unfold setdefault
  by_cases hc : (d.map Prod.fst).contains k = true
  · rw [if_pos hc]
  · rw [if_neg hc, dlookup_append_single, if_neg (fun h => hne h.symm)]

theorem known_false_colOf (f : String) (h : knownField f = false) :
    colOfField f = none := by
  unfold knownField at h
  rw [contains_keys_eq] at h
  unfold colOfField
  cases hl : List.lookup f COLUMNS with
  | none => rfl
  | some l => rw [hl] at h; cases h

theorem applyUpdates_cons (r : Nat) (p : String × String)
    (rest : List (String × String)) (g : Grid) :
    applyUpdates r (p :: rest) g
      = applyUpdates r rest
          (match colOfField p.1 with
           | none => g
           | some j => setCell g (r - 1) j p.2) := rfl

theorem applyUpdates_unknown (r : Nat) (ups : List (String × String)) (g : Grid)
    (h : ∀ p ∈ ups, knownField p.1 = false) : applyUpdates r ups g = g := by
  induction ups generalizing g with
  | nil => rfl
  | cons p rest ih =>
    rw [applyUpdates_cons, known_false_colOf p.1 (h p (by simp))]
    exact ih g (fun q hq => h q (by simp [hq]))

theorem applyUpdates_filter_known (r : Nat) (ups : List (String × String)) (g : Grid) :
    applyUpdates r ups g = applyUpdates r (ups.filter fun p => knownField p.1) g := by
  induction ups generalizing g with
  | nil => rfl
  | cons p rest ih =>
    by_cases hk : knownField p.1 = true
    · rw [applyUpdates_cons, List.filter_cons_of_pos (by simpa using hk),
        applyUpdates_cons]
      exact ih _
    · have hkf : knownField p.1 = false := by simpa using hk
      rw [applyUpdates_cons, known_false_colOf p.1 hkf,
        List.filter_cons_of_neg (by simpa using hk)]
      exact ih g

/-- Claim C5: an update whose company matches no stored deal returns the
not-found reply and performs no cell write, leaving the grid unchanged. -/
theorem claim_C5 (c : String) (ups : List (String × String)) (g : Grid)
    (h : find_deal c g = none) :
    update_deal c ups g = (g, "Could not find a deal for " ++ pyQuote c) := by
  unfold update_deal
  rw [h]

theorem claim_C5_witness :
    find_deal "Zzz" gAcme = none ∧
      update_deal "Zzz" [("stage", "Won")] gAcme
        = (gAcme, "Could not find a deal for \x27Zzz\x27") :=
  ⟨by decide, claim_C5 "Zzz" [("stage", "Won")] gAcme (by decide)⟩

/-- Claim C10: an update on an existing deal whose non-empty updates
mapping has only unknown fields writes nothing, leaves the grid unchanged,
and still returns the normal success summary naming the company and the
dropped updates. -/
theorem claim_C10 (c : String) (ups : List (String × String)) (g : Grid)
    (hfound : (find_deal c g).isSome = true) (_hne : ups ≠ [])
    (hunk : ∀ p ∈ ups, knownField p.1 = false) :
    update_deal c ups g = (g, "Updated " ++ c ++ ": " ++ pyDictRepr ups) := by
  unfold update_deal
  cases hfd : find_deal c g with
  | none => rw [hfd] at hfound; cases hfound
  | some d =>
    show (applyUpdates d.row_number ups g, _) = _
    rw [applyUpdates_unknown d.row_number ups g hunk]

theorem claim_C10_witness :
    (find_deal "Acme" gAcme).isSome = true ∧ ([("bogus", "x")] : List (String × String)) ≠ [] ∧
      update_deal "Acme" [("bogus", "x")] gAcme
        = (gAcme, "Updated Acme: \x7b\x27bogus\x27: \x27x\x27\x7d") :=
  ⟨by decide, by decide,
   claim_C10 "Acme" [("bogus", "x")] gAcme (by decide) (by decide) (by decide)⟩

/-- Claim C1 counterexample: an update containing a field outside the
fixed set does not fail with UnknownField and does modify the store — the
unknown field is silently dropped while the known field is written, and
the normal success summary is returned. -/
theorem claim_C1_counterexample :
    (update_deal "Acme" [("bogus", "x"), ("stage", "Discovery")] gAcme).1 ≠ gAcme ∧
      (update_deal "Acme" [("bogus", "x"), ("stage", "Discovery")] gAcme).2
        = "Updated Acme: \x7b\x27bogus\x27: \x27x\x27, \x27stage\x27: \x27Discovery\x27\x7d" := by
  constructor
  · decide
  · decide

/-- Claim C1 (amended): an update with fields outside the fixed set does
not fail: the unknown fields are silently skipped (the grid is the one
produced by the known-field updates alone), and whenever the company
resolves, the normal success summary naming all the requested updates is
returned. -/
theorem claim_C1 (c : String) (ups : List (String × String)) (g : Grid) :
    (update_deal c ups g).1
        = (update_deal c (ups.filter fun p => knownField p.1) g).1 ∧
      (∀ d, find_deal c g = some d →
        (update_deal c ups g).2 = "Updated " ++ c ++ ": " ++ pyDictRepr ups) := by
  constructor
  · unfold update_deal
    cases hfd : find_deal c g with
    | none => rfl
    | some d => exact applyUpdates_filter_known d.row_number ups g
  · intro d hfd
    unfold update_deal
    rw [hfd]

theorem claim_C1_witness :
    find_deal "Acme" gAcme = some dealAcme ∧
      (update_deal "Acme" [("bogus", "x"), ("stage", "Discovery")] gAcme).2
        = "Updated Acme: \x7b\x27bogus\x27: \x27x\x27, \x27stage\x27: \x27Discovery\x27\x7d" :=
  ⟨by decide,
   (claim_C1 "Acme" [("bogus", "x"), ("stage", "Discovery")] gAcme).2 dealAcme (by decide)⟩

/-- Claim C7: execute_action's add branch default-fills the deal mapping —
date_entered and stage_date become today exactly when absent, stage
becomes Lead exactly when absent, present fields keep their values, all
other fields are untouched — and then appends the row built from the
defaulted mapping, returning a confirmation naming the company. -/
theorem claim_C7 (d : List (String × String)) (today : String) (g : Grid) (c : String)
    (hc : dlookup d "company_name" = some c) :
    executeAdd d today g
        = (g ++ [addFieldOrder.map (fun f => dget
             (setdefault (setdefault (setdefault d "date_entered" today)
               "stage_date" today) "stage" "Lead") f "")],
           "Added new deal: " ++ c) ∧
      dlookup (setdefault (setdefault (setdefault d "date_entered" today)
          "stage_date" today) "stage" "Lead") "date_entered"
        = some ((dlookup d "date_entered").getD today) ∧
      dlookup (setdefault (setdefault (setdefault d "date_entered" today)
          "stage_date" today) "stage" "Lead") "stage_date"
        = some ((dlookup d "stage_date").getD today) ∧
      dlookup (setdefault (setdefault (setdefault d "date_entered" today)
          "stage_date" today) "stage" "Lead") "stage"
        = some ((dlookup d "stage").getD "Lead") ∧
      ∀ k, k ≠ "date_entered" → k ≠ "stage_date" → k ≠ "stage" →
        dlookup (setdefault (setdefault (setdefault d "date_entered" today)
            "stage_date" today) "stage" "Lead") k = dlookup d k := by
  have hother : ∀ k, k ≠ "date_entered" → k ≠ "stage_date" → k ≠ "stage" →
      dlookup (setdefault (setdefault (setdefault d "date_entered" today)
          "stage_date" today) "stage" "Lead") k = dlookup d k := by
    intro k h1 h2 h3
    rw [setdefault_lookup_other _ _ _ _ h3, setdefault_lookup_other _ _ _ _ h2,
      setdefault_lookup_other _ _ _ _ h1]
  refine ⟨?_, ?_, ?_, ?_, hother⟩
  · show add_deal (setdefault (setdefault (setdefault d "date_entered" today)
        "stage_date" today) "stage" "Lead") g = _
    unfold add_deal
    rw [hother "company_name" (by decide) (by decide) (by decide), hc]
    rfl
  · rw [setdefault_lookup_other _ _ _ _ (by decide),
      setdefault_lookup_other _ _ _ _ (by decide), setdefault_lookup_self]
  · rw [setdefault_lookup_other _ _ _ _ (by decide), setdefault_lookup_self,
      setdefault_lookup_other _ _ _ _ (by decide)]
  · rw [setdefault_lookup_self, setdefault_lookup_other _ _ _ _ (by decide),
      setdefault_lookup_other _ _ _ _ (by decide)]

theorem claim_C7_witness :
    dlookup [("company_name", "Beta")] "company_name" = some "Beta" ∧
      executeAdd [("company_name", "Beta")] "2024-06-01" gAcme
        = (gAcme ++ [["Beta", "", "", "", "", "2024-06-01", "Lead", "2024-06-01",
                      "", "", "", "", "", ""]], "Added new deal: Beta") := by
  refine ⟨by decide, ?_⟩
  rw [(claim_C7 [("company_name", "Beta")] "2024-06-01" gAcme "Beta" (by decide)).1]
  decide

/-- Claim C9 counterexample: with the empty-string stage filter the code
returns every deal (Python truthiness makes the filter a no-op), including
a deal whose stage is not the empty string — not only the deals whose
stage case-insensitively equals the filter. -/
theorem claim_C9_counterexample :
    list_deals (some "") gAcme = [dealAcme] ∧
      pyLower (dealAcme.get "stage" "") ≠ pyLower "" := by
  constructor
  · decide
  · decide

/-- Claim C9 (amended): list with no filter, and with the falsy empty
string filter, returns all deals; with a non-empty stage filter it returns
exactly the deals whose stage case-insensitively equals the filter. -/
theorem claim_C9 (g : Grid) :
    list_deals none g = get_all_deals g ∧
      list_deals (some "") g = get_all_deals g ∧
      ∀ s, s ≠ "" → ∀ d, d ∈ list_deals (some s) g ↔
        d ∈ get_all_deals g ∧ pyLower (d.get "stage" "") = pyLower s := by
  refine ⟨rfl, rfl, ?_⟩
  intro s hs d
  have ht : pyTruthy (some s) = true := by
    unfold pyTruthy
    have h1 : ¬ (s.isEmpty = true) := fun h => hs ((String.isEmpty_iff s).1 h)
    simp [Bool.not_eq_true] at h1
    simp [h1]
  unfold list_deals
  rw [ht]
  simp only [if_true, List.mem_filter, Option.getD_some, beq_iff_eq]

theorem claim_C9_witness :
    ("discovery" ≠ "") ∧
      (dealAcme ∈ list_deals (some "discovery") gAcme ↔
        dealAcme ∈ get_all_deals gAcme ∧
          pyLower (dealAcme.get "stage" "") = pyLower "discovery") :=
  ⟨by decide, (claim_C9 gAcme).2.2 "discovery" (by decide) dealAcme⟩

theorem pyInStr_iff (needle hay : String) :
    pyInStr needle hay = true ↔ ∃ l r, hay.data = l ++ needle.data ++ r := by
  unfold pyInStr
  rw [List.any_eq_true]
  constructor
  · rintro ⟨i, hi, hpre⟩
    rw [ List.isPrefixOf_iff_prefix] at hpre
    obtain ⟨t, ht⟩ := hpre
    refine ⟨hay.toList.take i, t, ?_⟩
    have hsplit : hay.data = hay.toList.take i ++ hay.toList.drop i :=
      (List.take_append_drop i hay.toList).symm
    rw [hsplit, ← ht, List.append_assoc]
    rfl
  · rintro ⟨l, r, hl⟩
    refine ⟨l.length, ?_, ?_⟩
    · rw [List.mem_range, show hay.toList = hay.data from rfl]
      have hlen : (l ++ needle.data ++ r).length = hay.data.length := by rw [hl]
      simp only [List.length_append] at hlen
      omega
    · rw [ List.isPrefixOf_iff_prefix]
      have hd : hay.toList = l ++ (needle.data ++ r) := by
        rw [show hay.toList = hay.data from rfl, hl, List.append_assoc]
      rw [hd, List.drop_left]
      exact List.prefix_append _ _

theorem findLoop_eq_none_iff (n : String) (ds : List Deal) :
    findLoop n ds = none ↔
      ∀ d ∈ ds, pyInStr n (pyLower (d.get "company_name" "")) = false := by
  induction ds with
  | nil => simp [findLoop]
  | cons d rest ih =>
    unfold findLoop
    by_cases h : pyInStr n (pyLower (d.get "company_name" "")) = true
    · simp [h]
    · have hf : pyInStr n (pyLower (d.get "company_name" "")) = false := by
        simpa using h
      simp [hf, ih]

theorem findLoop_eq_some (n : String) (ds : List Deal) (d : Deal)
    (h : findLoop n ds = some d) :
    pyInStr n (pyLower (d.get "company_name" "")) = true ∧
      ∃ pre post, ds = pre ++ d :: post ∧
        ∀ d' ∈ pre, pyInStr n (pyLower (d'.get "company_name" "")) = false := by
  induction ds with
  | nil => cases h
  | cons d0 rest ih =>
    unfold findLoop at h
    by_cases hp : pyInStr n (pyLower (d0.get "company_name" "")) = true
    · rw [if_pos hp] at h
      have hd : d0 = d := by cases h; rfl
      subst hd
      exact ⟨hp, [], rest, rfl, by simp⟩
    · rw [if_neg hp] at h
      obtain ⟨hm, pre, post, hds, hpre⟩ := ih h
      refine ⟨hm, d0 :: pre, post, by rw [hds, List.cons_append], ?_⟩
      intro d' hd'
      rcases List.mem_cons.1 hd' with rfl | hmem
      · simpa using hp
      · exact hpre d' hmem

/-- Claim C3: deal lookup returns the first deal in row order whose stored
company name contains the query as a case-insensitive substring, and
returns none exactly when no deal's company name contains it. -/
theorem claim_C3 (q : String) (g : Grid) :
    (find_deal q g = none ↔ ∀ d ∈ get_all_deals g, ¬ cMatch q d) ∧
      (∀ d, find_deal q g = some d →
        cMatch q d ∧ ∃ pre post, get_all_deals g = pre ++ d :: post ∧
          ∀ d' ∈ pre, ¬ cMatch q d') := by
  have hiff : ∀ d : Deal,
      cMatch q d ↔ pyInStr (pyLower q) (pyLower (d.get "company_name" "")) = true :=
    fun d => (pyInStr_iff (pyLower q) (pyLower (d.get "company_name" ""))).symm
  have hniff : ∀ d : Deal,
      ¬ cMatch q d ↔ pyInStr (pyLower q) (pyLower (d.get "company_name" "")) = false := by
    intro d
    rw [hiff d]
    cases pyInStr (pyLower q) (pyLower (d.get "company_name" "")) <;> simp
  constructor
  · rw [show find_deal q g = findLoop (pyLower q) (get_all_deals g) from rfl,
      findLoop_eq_none_iff]
    constructor
    · intro h d hd
      rw [hniff d]
      exact h d hd
    · intro h d hd
      rw [← hniff d]
      exact h d hd
  · intro d hfd
    obtain ⟨hm, pre, post, hds, hpre⟩ := findLoop_eq_some (pyLower q) _ d hfd
    refine ⟨(hiff d).2 hm, pre, post, hds, ?_⟩
    intro d' hd'
    rw [hniff d']
    exact hpre d' hd'

theorem claim_C3_witness :
    find_deal "acme" gAcme = some dealAcme ∧ cMatch "acme" dealAcme :=
  ⟨by decide, ((claim_C3 "acme" gAcme).2 dealAcme (by decide)).1⟩

/-! Grid cell lemmas. -/

theorem getD_set_self {α : Type} (l : List α) (i : Nat) (a d : α) (h : i < l.length) :
    (l.set i a).getD i d = a := by
  induction l generalizing i with
  | nil => cases h
  | cons x xs ih =>
    cases i with
    | zero => rfl
    | succ n => exact ih n (Nat.lt_of_succ_lt_succ h)

theorem getD_set_ne {α : Type} (l : List α) (i i' : Nat) (a d : α) (h : i ≠ i') :
    (l.set i a).getD i' d = l.getD i' d := by
  induction l generalizing i i' with
  | nil => rfl
  | cons x xs ih =>
    cases i with
    | zero =>
      cases i' with
      | zero => exact absurd rfl h
      | succ m => rfl
    | succ n =>
      cases i' with
      | zero => rfl
      | succ m => exact ih n m (fun he => h (by rw [he]))

theorem getD_replicate {α : Type} (n i : Nat) (x : α) :
    (List.replicate n x).getD i x = x := by
  induction n generalizing i with
  | zero => rfl
  | succ m ih =>
    cases i with
    | zero => rfl
    | succ k => exact ih k

theorem padList_cons {α : Type} (a : α) (l : List α) (n : Nat) (x : α) :
    padList (a :: l) n x = a :: padList l (n - 1) x := by
  unfold padList
  rw [List.cons_append]
  have hn : n - (a :: l).length = (n - 1) - l.length := by
    simp only [List.length_cons]
    omega
  rw [hn]

theorem getD_padList {α : Type} (l : List α) (n i : Nat) (x : α) :
    (padList l n x).getD i x = l.getD i x := by
  induction l generalizing n i with
  | nil =>
    show (List.replicate n x).getD i x = ([] : List α).getD i x
    rw [getD_replicate]
    cases i <;> rfl
  | cons a rest ih =>
    rw [padList_cons]
    cases i with
    | zero => rfl
    | succ k => exact ih (n - 1) k

theorem length_padList_ge {α : Type} (l : List α) (n : Nat) (x : α) :
    n ≤ (padList l n x).length := by
  unfold padList
  simp only [List.length_append, List.length_replicate]
  omega

theorem getCell_setCell_self (g : Grid) (i j : Nat) (v : String) :
    getCell (setCell g i j v) i j = v := by
  unfold getCell setCell
  rw [getD_set_self _ _ _ _ (Nat.lt_of_lt_of_le (Nat.lt_succ_self i) (length_padList_ge g (i + 1) []))]
  rw [getD_set_self _ _ _ _ (Nat.lt_of_lt_of_le (Nat.lt_succ_self j) (length_padList_ge _ (j + 1) ""))]

theorem getCell_setCell_ne (g : Grid) (i j i' j' : Nat) (v : String)
    (h : ¬ (i = i' ∧ j = j')) :
    getCell (setCell g i j v) i' j' = getCell g i' j' := by
  unfold getCell setCell
  by_cases hi : i = i'
  · subst hi
    have hj : j ≠ j' := fun he => h ⟨rfl, he⟩
    rw [getD_set_self _ _ _ _ (Nat.lt_of_lt_of_le (Nat.lt_succ_self i) (length_padList_ge g (i + 1) []))]
    rw [getD_set_ne _ _ _ _ _ hj, getD_padList]
  · rw [getD_set_ne _ _ _ _ _ hi, getD_padList]

theorem lookup_mem (tbl : List (String × String)) (f l : String)
    (h : List.lookup f tbl = some l) : (f, l) ∈ tbl := by
  induction tbl with
  | nil => cases h
  | cons a rest ih =>
    obtain ⟨k, v⟩ := a
    by_cases hk : f = k
    · subst hk
      simp only [List.lookup, beq_self_eq_true] at h
      cases h
      exact List.mem_cons_self _ _
    · have hb : (f == k) = false := by simpa using hk
      simp only [List.lookup, hb] at h
      exact List.mem_cons_of_mem _ (ih h)

theorem colOf_inj (f f' : String) (j : Nat)
    (h : colOfField f = some j) (h' : colOfField f' = some j) : f = f' := by
  unfold colOfField at h h'
  cases hl : List.lookup f COLUMNS with
  | none => rw [hl] at h; cases h
  | some l =>
    cases hl' : List.lookup f' COLUMNS with
    | none => rw [hl'] at h'; cases h'
    | some l' =>
      rw [hl] at h
      rw [hl'] at h'
      have hm := lookup_mem COLUMNS f l hl
      have hm' := lookup_mem COLUMNS f' l' hl'
      have hall : ∀ p ∈ COLUMNS, ∀ q ∈ COLUMNS,
          colLetterIdx p.2 = colLetterIdx q.2 → p.1 = q.1 := by decide
      have hj : colLetterIdx l = j := by cases h; rfl
      have hj' : colLetterIdx l' = j := by cases h'; rfl
      exact hall (f, l) hm (f', l') hm' (by rw [hj, hj'])

theorem lastWrite_cons (p : String × String) (rest : List (String × String)) (j : Nat) :
    lastWrite (p :: rest) j
      = match lastWrite rest j with
        | some w => some w
        | none =>
          match colOfField p.1 with
          | some j' => if j' = j then some p.2 else none
          | none => none := rfl

theorem applyUpdates_other_rows (r : Nat) (ups : List (String × String)) (g : Grid)
    (i j : Nat) (hi : i ≠ r - 1) :
    getCell (applyUpdates r ups g) i j = getCell g i j := by
  induction ups generalizing g with
  | nil => rfl
  | cons p rest ih =>
    rw [applyUpdates_cons]
    cases hc : colOfField p.1 with
    | none =>
      show getCell (applyUpdates r rest g) i j = _
      exact ih g
    | some jc =>
      show getCell (applyUpdates r rest (setCell g (r - 1) jc p.2)) i j = _
      rw [ih (setCell g (r - 1) jc p.2)]
      exact getCell_setCell_ne g (r - 1) jc i j p.2 (fun hij => hi hij.1.symm)

theorem applyUpdates_row (r : Nat) (ups : List (String × String)) (g : Grid) (j : Nat) :
    getCell (applyUpdates r ups g) (r - 1) j
      = (lastWrite ups j).getD (getCell g (r - 1) j) := by
  induction ups generalizing g with
  | nil => rfl
  | cons p rest ih =>
    rw [applyUpdates_cons, lastWrite_cons]
    cases hc : colOfField p.1 with
    | none =>
      show getCell (applyUpdates r rest g) (r - 1) j = _
      rw [ih g]
      cases hlw : lastWrite rest j <;> rfl
    | some jc =>
      show getCell (applyUpdates r rest (setCell g (r - 1) jc p.2)) (r - 1) j = _
      rw [ih (setCell g (r - 1) jc p.2)]
      cases hlw : lastWrite rest j with
      | some w => rfl
      | none =>
        show getCell (setCell g (r - 1) jc p.2) (r - 1) j
          = (if jc = j then some p.2 else none).getD (getCell g (r - 1) j)
        by_cases hj : jc = j
        · subst hj
          rw [if_pos rfl, getCell_setCell_self]
          rfl
        · rw [if_neg hj, getCell_setCell_ne g (r - 1) jc (r - 1) j p.2 (fun hij => hj hij.2)]
          rfl

theorem lastWrite_none_of_not_mem (ups : List (String × String)) (f : String) (j : Nat)
    (hf : ¬ f ∈ ups.map Prod.fst) (hcol : colOfField f = some j) :
    lastWrite ups j = none := by
  induction ups with
  | nil => rfl
  | cons p rest ih =>
    have hf0 : f ≠ p.1 := fun he => hf (by simp [he])
    have hfr : ¬ f ∈ rest.map Prod.fst := fun hm => hf (by simp [hm])
    rw [lastWrite_cons, ih hfr]
    cases hc : colOfField p.1 with
    | none => rfl
    | some j0 =>
      show (if j0 = j then some p.2 else none) = none
      by_cases hj : j0 = j
      · subst hj
        exact absurd (colOf_inj f p.1 j0 hcol hc) hf0
      · rw [if_neg hj]

theorem lastWrite_of_nodup_mem (ups : List (String × String)) (f v : String) (j : Nat)
    (hnd : (ups.map Prod.fst).Nodup) (hm : (f, v) ∈ ups) (hcol : colOfField f = some j) :
    lastWrite ups j = some v := by
  induction ups with
  | nil => cases hm
  | cons p rest ih =>
    rw [List.map_cons, List.nodup_cons] at hnd
    rcases List.mem_cons.1 hm with heq | hmem
    · subst heq
      rw [lastWrite_cons, lastWrite_none_of_not_mem rest f j hnd.1 hcol]
      show (match colOfField f with
            | some j' => if j' = j then some v else none
            | none => none) = some v
      rw [hcol]
      show (if j = j then some v else none) = some v
      rw [if_pos rfl]
    · rw [lastWrite_cons, ih hnd.2 hmem]

/-- Claim C6: an update on an existing deal writes only the cells of the
named known fields in that deal's row: every other row is unchanged, the
deal's row holds the last written value per column (and the prior cell
where no update targets the column), fields not named keep their cells,
and each named known field's cell receives its supplied value. -/
theorem claim_C6 (c : String) (ups : List (String × String)) (g : Grid) (d : Deal)
    (hfd : find_deal c g = some d) :
    (∀ i j, i ≠ d.row_number - 1 →
       getCell (update_deal c ups g).1 i j = getCell g i j) ∧
      (∀ j, getCell (update_deal c ups g).1 (d.row_number - 1) j
         = (lastWrite ups j).getD (getCell g (d.row_number - 1) j)) ∧
      (∀ f j, ¬ f ∈ ups.map Prod.fst → colOfField f = some j →
         getCell (update_deal c ups g).1 (d.row_number - 1) j
           = getCell g (d.row_number - 1) j) ∧
      ((ups.map Prod.fst).Nodup → ∀ f v j, (f, v) ∈ ups → colOfField f = some j →
         getCell (update_deal c ups g).1 (d.row_number - 1) j = v) := by
  have hu : (update_deal c ups g).1 = applyUpdates d.row_number ups g := by
    unfold update_deal
    rw [hfd]
  rw [hu]
  refine ⟨fun i j hi => applyUpdates_other_rows d.row_number ups g i j hi,
    fun j => applyUpdates_row d.row_number ups g j, ?_, ?_⟩
  · intro f j hf hcol
    rw [applyUpdates_row, lastWrite_none_of_not_mem ups f j hf hcol]
    rfl
  · intro hnd f v j hm hcol
    rw [applyUpdates_row, lastWrite_of_nodup_mem ups f v j hnd hm hcol]
    rfl

theorem claim_C6_witness :
    find_deal "Acme" gAcme = some dealAcme ∧
      getCell (update_deal "Acme"
        [("stage", "Discovery"), ("stage_date", "2024-06-01")] gAcme).1 1 6
        = "Discovery" ∧
      getCell (update_deal "Acme"
        [("stage", "Discovery"), ("stage_date", "2024-06-01")] gAcme).1 1 0
        = getCell gAcme 1 0 := by
  refine ⟨by decide, ?_, ?_⟩
  · exact (claim_C6 "Acme" [("stage", "Discovery"), ("stage_date", "2024-06-01")]
      gAcme dealAcme (by decide)).2.2.2 (by decide) "stage" "Discovery" 6
      (by decide) (by decide)
  · exact (claim_C6 "Acme" [("stage", "Discovery"), ("stage_date", "2024-06-01")]
      gAcme dealAcme (by decide)).2.2.1 "company_name" 0 (by decide) (by decide)

theorem dealFields_keys (hs row : List String) :
    (dealFields hs row).map Prod.fst = hs := by
  induction hs generalizing row with
  | nil => rfl
  | cons h hs' ih =>
    cases row with
    | nil => simp [dealFields, ih]
    | cons c cs => simp [dealFields, ih]

theorem dlookup_dealFields (hs row : List String) (j : Nat)
    (hnd : hs.Nodup) (hj : j < hs.length) :
    dlookup (dealFields hs row) (hs.getD j "") = some (row.getD j "") := by
  induction hs generalizing row j with
  | nil => cases hj
  | cons h hs' ih =>
    rw [List.nodup_cons] at hnd
    cases j with
    | zero =>
      have hrest : dlookup (dealFields hs' (row.tail)) h = none := by
        rw [dlookup_none_iff, dealFields_keys]
        exact hnd.1
      cases row with
      | nil =>
        show dlookup ((h, "") :: dealFields hs' []) h = some ""
        rw [dlookup_cons]
        have h0 : dlookup (dealFields hs' []) h = none := by
          rw [dlookup_none_iff, dealFields_keys]
          exact hnd.1
        rw [h0, if_pos rfl]
      | cons c cs =>
        show dlookup ((h, c) :: dealFields hs' cs) h = some c
        rw [dlookup_cons]
        have h0 : dlookup (dealFields hs' cs) h = none := by
          rw [dlookup_none_iff, dealFields_keys]
          exact hnd.1
        rw [h0, if_pos rfl]
    | succ n =>
      have hn : n < hs'.length := Nat.lt_of_succ_lt_succ hj
      cases row with
      | nil =>
        show dlookup ((h, "") :: dealFields hs' []) (hs'.getD n "") = some ""
        rw [dlookup_cons, ih [] n hnd.2 hn]
        rfl
      | cons c cs =>
        show dlookup ((h, c) :: dealFields hs' cs) (hs'.getD n "") = some (cs.getD n "")
        rw [dlookup_cons, ih cs n hnd.2 hn]

/-- Claim C8: fetching all deals treats row 1 as headers only, normalizes
each header, builds one deal per later row by positional zip against the
normalized headers with empty-text padding, preserves store row order, and
records each deal's original sheet row number.  (The hypotheses exclude a
data header that duplicates another or that collides with the reserved
`row_number` dict key.) -/
theorem claim_C8 (headerRow : List String) (rows : List (List String))
    (hnd : (headerRow.map normalize_header).Nodup)
    (_hrn : ¬ "row_number" ∈ headerRow.map normalize_header) :
    get_all_deals ([] : Grid) = [] ∧
      (get_all_deals (headerRow :: rows)).length = rows.length ∧
      (∀ k, k < rows.length →
        ((get_all_deals (headerRow :: rows)).getD k ⟨0, []⟩).row_number = k + 2) ∧
      (∀ k j, k < rows.length → j < headerRow.length →
        ((get_all_deals (headerRow :: rows)).getD k ⟨0, []⟩).get
            (normalize_header (headerRow.getD j "")) ""
          = (rows.getD k []).getD j "") := by
  have hlen : (get_all_deals (headerRow :: rows)).length = rows.length := by
    simp [get_all_deals]
  have hget : ∀ k, (hk : k < rows.length) →
      (get_all_deals (headerRow :: rows)).getD k ⟨0, []⟩
        = { row_number := k + 2,
            fields := dealFields (headerRow.map normalize_header) (rows.getD k []) } := by
    intro k hk
    have hk' : k < (get_all_deals (headerRow :: rows)).length := by rw [hlen]; exact hk
    rw [List.getD_eq_getElem _ _ hk']
    show ((rows.enum).map _)[k] = _
    rw [List.getElem_map, List.getElem_enum]
    rw [List.getD_eq_getElem _ _ hk]
  refine ⟨rfl, hlen, ?_, ?_⟩
  · intro k hk
    rw [hget k hk]
  · intro k j hk hj
    rw [hget k hk]
    show dget (dealFields (headerRow.map normalize_header) (rows.getD k []))
      (normalize_header (headerRow.getD j "")) "" = _
    have hj' : j < (headerRow.map normalize_header).length := by
      rw [List.length_map]; exact hj
    have hkey : normalize_header (headerRow.getD j "")
        = (headerRow.map normalize_header).getD j "" := by
      rw [List.getD_eq_getElem _ _ hj, List.getD_eq_getElem _ _ hj', List.getElem_map]
    rw [hkey]
    unfold dget
    rw [dlookup_dealFields _ _ j hnd hj']
    rfl

theorem claim_C8_witness :
    (tHdr.map normalize_header).Nodup ∧
      ¬ "row_number" ∈ tHdr.map normalize_header ∧
      ((get_all_deals (tHdr :: [tRowAcme])).getD 0 ⟨0, []⟩).row_number = 2 ∧
      ((get_all_deals (tHdr :: [tRowAcme])).getD 0 ⟨0, []⟩).get
          (normalize_header (tHdr.getD 6 "")) ""
        = ([tRowAcme].getD 0 []).getD 6 "" := by
  refine ⟨by decide, by decide, ?_, ?_⟩
  · exact (claim_C8 tHdr [tRowAcme] (by decide) (by decide)).2.2.1 0 (by decide)
  · exact (claim_C8 tHdr [tRowAcme] (by decide) (by decide)).2.2.2 0 6 (by decide) (by decide)

/-- Claim C2 counterexample: a reply that is a valid JSON object with no
`action` key does not fail as MalformedResponse — it parses successfully
and the executor runs its else branch, returning the unknown-action
diagnostic with the store untouched. -/
theorem claim_C2_counterexample :
    parseReply ("\x7b\"foo\": \"bar\"\x7d").data
        = some (Json.obj [("foo".data, Json.str "bar".data)]) ∧
      execute_action [("foo".data, Json.str "bar".data)] "2024-06-01" gAcme
        = (gAcme, "Unknown action: None") := by
  constructor
  · rfl
  · rfl

/-- Claim C2 (amended): MalformedResponse arises exactly from the reply
failing to parse as JSON after fence stripping; a reply that parses to an
object lacking the `action` key is executed normally, the executor
returning the `Unknown action: None` diagnostic and leaving the store
unchanged. -/
theorem claim_C2 (raw : List Char) (o : List (List Char × Json)) (today : String)
    (g : Grid) (_hp : parseReply raw = some (Json.obj o))
    (ha : jGet o "action".data = none) :
    execute_action o today g = (g, "Unknown action: None") := by
  unfold execute_action
  rw [ha]

theorem claim_C2_witness :
    parseReply ("\x7b\"a\": 1\x7d").data
        = some (Json.obj [("a".data, Json.num "1".data)]) ∧
      jGet [("a".data, Json.num "1".data)] "action".data = none ∧
      execute_action [("a".data, Json.num "1".data)] "2024-06-01" gAcme
        = (gAcme, "Unknown action: None") :=
  ⟨rfl, rfl,
   claim_C2 ("\x7b\"a\": 1\x7d").data [("a".data, Json.num "1".data)]
     "2024-06-01" gAcme rfl rfl⟩

/-! Helper lemmas for the fence-stripping and JSON-parsing analysis. -/

theorem isPrefixOf_append_of (l s x : List Char) (h : l.isPrefixOf s = true) :
    l.isPrefixOf (s ++ x) = true := by
  rw [ List.isPrefixOf_iff_prefix] at h ⊢
  exact h.trans (List.prefix_append s x)

theorem lit_isPrefixOf_append_nl (lit s : List Char) (hn : ¬ '\n' ∈ lit) :
    lit.isPrefixOf (s ++ ['\n']) = lit.isPrefixOf s := by
  induction lit generalizing s with
  | nil => simp [List.isPrefixOf]
  | cons a as ih =>
    cases s with
    | nil =>
      have ha : (a == '\n') = false := by
        have hne : ¬ a = '\n' := fun he => hn (by simp [he])
        simpa using hne
      show (a :: as).isPrefixOf ['\n'] = (a :: as).isPrefixOf []
      simp [List.isPrefixOf, ha]
    | cons b bs =>
      show (a == b && as.isPrefixOf (bs ++ ['\n'])) = (a == b && as.isPrefixOf bs)
      rw [ih bs (fun hm => hn (by simp [hm]))]

theorem prefix_length_le (l s : List Char) (h : l.isPrefixOf s = true) :
    l.length ≤ s.length := by
  rw [ List.isPrefixOf_iff_prefix] at h
  exact h.length_le

theorem drop_append_of_le (n : Nat) (s x : List Char) (h : n ≤ s.length) :
    (s ++ x).drop n = s.drop n ++ x :=
  List.drop_append_of_le_length h

theorem skipJws_append (l x : List Char) (h : skipJws l ≠ []) :
    skipJws (l ++ x) = skipJws l ++ x := by
  induction l with
  | nil => exact absurd rfl h
  | cons c cs ih =>
    by_cases hc : jws c = true
    · have h' : skipJws cs ≠ [] := by
        unfold skipJws at h
        rw [List.dropWhile_cons, if_pos hc] at h
        exact h
      show skipJws (c :: (cs ++ x)) = skipJws (c :: cs) ++ x
      unfold skipJws
      rw [List.dropWhile_cons, if_pos hc, List.dropWhile_cons, if_pos hc]
      exact ih h'
    · show skipJws (c :: (cs ++ x)) = skipJws (c :: cs) ++ x
      unfold skipJws
      rw [List.dropWhile_cons, if_neg hc, List.dropWhile_cons, if_neg hc, List.cons_append]

theorem parseValue_nil (n : Nat) : parseValue n [] = none := by
  cases n <;> rfl

theorem parseElems_nil (n : Nat) : parseElems n [] = none := by
  cases n with
  | zero => rfl
  | succ m => simp [parseElems, parseValue_nil]

theorem parseMembers_nil (n : Nat) : parseMembers n [] = none := by
  cases n <;> rfl





theorem strBody_ext (x : List Char) : ∀ (r cs rest : List Char),
    strBody r = some (cs, rest) → strBody (r ++ x) = some (cs, rest ++ x) := by
  intro r
  induction r using strBody.induct with
  | case1 =>
    intro cs rest h
    cases h
  | case2 rest2 =>
    intro cs rest h
    simp [strBody.eq_def] at h
    obtain ⟨rfl, rfl⟩ := h
    rw [List.cons_append, strBody.eq_def]
    simp
  | case3 =>
    intro cs rest h
    simp [strBody.eq_def] at h
  | case4 h1 h2 h3 h4 rest3 hhex cs' r' hsb _ ih =>
    intro cs rest h
    rw [strBody.eq_def] at h
    simp only [hhex, hsb, if_true, if_pos rfl, reduceCtorEq, reduceIte] at h
    simp only [List.cons_append]
    rw [strBody.eq_def]
    simp only [hhex, ih cs' r' hsb, if_true, reduceIte]
    simp_all
  | case5 h1 h2 h3 h4 rest3 hhex hsb _ _ =>
    intro cs rest h
    rw [strBody.eq_def] at h
    simp [hhex, hsb] at h
  | case6 h1 h2 h3 h4 rest3 hhex _ =>
    intro cs rest h
    rw [strBody.eq_def] at h
    simp [hhex] at h
  | case7 rest2 hne _ =>
    intro cs rest h
    rcases rest2 with _ | ⟨a, _ | ⟨b, _ | ⟨c, _ | ⟨d, r3⟩⟩⟩⟩
    · rw [strBody.eq_def] at h
      simp at h
    · rw [strBody.eq_def] at h
      simp at h
    · rw [strBody.eq_def] at h
      simp at h
    · rw [strBody.eq_def] at h
      simp at h
    · exact absurd rfl (fun he => hne a b c d r3 he)
  | case8 e rest2 hu ec hesc cs' r' hsb _ ih =>
    intro cs rest h
    rw [strBody.eq_def] at h
    simp only [hu, hesc, hsb, if_false, reduceIte] at h
    simp only [List.cons_append]
    rw [strBody.eq_def]
    simp only [hu, hesc, ih cs' r' hsb, if_false, reduceIte]
    simp_all
  | case9 e rest2 hu ec hesc hsb _ _ =>
    intro cs rest h
    rw [strBody.eq_def] at h
    simp [hu, hesc, hsb] at h
  | case10 e rest2 hu hesc _ =>
    intro cs rest h
    rw [strBody.eq_def] at h
    simp [hu, hesc] at h
  | case11 e rest2 hq hb hge cs' r' hsb ih =>
    intro cs rest h
    rw [strBody.eq_def] at h
    simp only [hq, hb, hge, hsb, if_false, if_true, reduceIte] at h
    simp only [List.cons_append]
    rw [strBody.eq_def]
    simp only [hq, hb, hge, ih cs' r' hsb, if_false, if_true, reduceIte]
    simp_all
  | case12 e rest2 hq hb hge hsb _ =>
    intro cs rest h
    rw [strBody.eq_def] at h
    simp [hq, hb, hge, hsb] at h
  | case13 e rest2 hq hb hge =>
    intro cs rest h
    rw [strBody.eq_def] at h
    simp [hq, hb, hge] at h

theorem takeDigs_append_nl (l : List Char) :
    takeDigs (l ++ ['\n']) = takeDigs l ∧ dropDigs (l ++ ['\n']) = dropDigs l ++ ['\n'] := by
  induction l with
  | nil =>
    constructor
    · show List.takeWhile Char.isDigit ['\n'] = List.takeWhile Char.isDigit []
      simp [List.takeWhile]
    · show List.dropWhile Char.isDigit ['\n'] = List.dropWhile Char.isDigit [] ++ ['\n']
      simp [List.dropWhile]
  | cons c cs ih =>
    unfold takeDigs dropDigs at ih ⊢
    rw [List.cons_append, List.takeWhile_cons, List.takeWhile_cons,
      List.dropWhile_cons, List.dropWhile_cons]
    by_cases hc : c.isDigit = true
    · simp only [hc, if_true, reduceIte]
      exact ⟨by rw [ih.1], by rw [ih.2]⟩
    · simp only [hc, if_false, reduceIte]
      exact ⟨rfl, by simp⟩

theorem parseExpPart_ext (acc s lx r : List Char)
    (h : parseExpPart acc s = some (lx, r)) :
    parseExpPart acc (s ++ ['\n']) = some (lx, r ++ ['\n']) := by
  cases s with
  | nil =>
    rw [show parseExpPart acc [] = some (acc, []) from rfl] at h
    cases h
    show parseExpPart acc ['\n'] = some (acc, ['\n'])
    rw [parseExpPart.eq_def]
    simp
  | cons c r1 =>
    rw [show ((c :: r1) ++ ['\n'] : List Char) = c :: (r1 ++ ['\n']) from rfl]
    rw [parseExpPart.eq_def] at h ⊢
    by_cases he : (c = 'e' || c = 'E') = true
    · simp only [he, if_true, reduceIte] at h ⊢
      cases r1 with
      | nil => cases h
      | cons d r2 =>
        rw [show ((d :: r2) ++ ['\n'] : List Char) = d :: (r2 ++ ['\n']) from rfl]
        by_cases hd : (d = '+' || d = '-') = true
        · simp only [hd, if_true, reduceIte] at h ⊢
          cases r2 with
          | nil => cases h
          | cons d2 r3 =>
            rw [show ((d2 :: r3) ++ ['\n'] : List Char) = d2 :: (r3 ++ ['\n']) from rfl]
            by_cases hd2 : d2.isDigit = true
            · simp only [hd2, if_true, reduceIte] at h ⊢
              cases h
              have ht := takeDigs_append_nl (d2 :: r3)
              rw [show ((d2 :: r3) ++ ['\n'] : List Char) = d2 :: (r3 ++ ['\n']) from rfl] at ht
              rw [ht.1, ht.2]
            · simp only [hd2, if_false, reduceIte] at h
              cases h
        · simp only [hd, Bool.false_eq_true, if_false, reduceIte] at h ⊢
          by_cases hdd : d.isDigit = true
          · simp only [hdd, if_true, reduceIte] at h ⊢
            cases h
            have ht := takeDigs_append_nl (d :: r2)
            rw [show ((d :: r2) ++ ['\n'] : List Char) = d :: (r2 ++ ['\n']) from rfl] at ht
            rw [ht.1, ht.2]
          · simp only [hdd, if_false, reduceIte] at h
            cases h
    · simp only [he, Bool.false_eq_true, if_false, reduceIte] at h ⊢
      cases h
      rfl

theorem parseFracPart_ext (acc s lx r : List Char)
    (h : parseFracPart acc s = some (lx, r)) :
    parseFracPart acc (s ++ ['\n']) = some (lx, r ++ ['\n']) := by
  cases s with
  | nil =>
    rw [show parseFracPart acc [] = parseExpPart acc [] from rfl] at h
    show parseFracPart acc ['\n'] = some (lx, r ++ ['\n'])
    rw [show parseFracPart acc ['\n'] = parseExpPart acc ['\n'] from by
      rw [parseFracPart.eq_def]; simp]
    exact parseExpPart_ext acc [] lx r h
  | cons c r1 =>
    rw [show ((c :: r1) ++ ['\n'] : List Char) = c :: (r1 ++ ['\n']) from rfl]
    rw [parseFracPart.eq_def] at h ⊢
    by_cases hc : c = '.'
    · simp only [hc, if_true, reduceIte] at h ⊢
      cases r1 with
      | nil => cases h
      | cons d r2 =>
        rw [show ((d :: r2) ++ ['\n'] : List Char) = d :: (r2 ++ ['\n']) from rfl]
        by_cases hd : d.isDigit = true
        · simp only [hd, if_true, reduceIte] at h ⊢
          have ht := takeDigs_append_nl (d :: r2)
          rw [show ((d :: r2) ++ ['\n'] : List Char) = d :: (r2 ++ ['\n']) from rfl] at ht
          rw [ht.1, ht.2]
          exact parseExpPart_ext _ _ lx r h
        · simp only [hd, if_false, reduceIte] at h
          cases h
    · simp only [hc, Bool.false_eq_true, if_false, reduceIte] at h ⊢
      exact parseExpPart_ext acc (c :: r1) lx r h

theorem parseNumber_ext (s lx r : List Char)
    (h : parseNumber s = some (lx, r)) :
    parseNumber (s ++ ['\n']) = some (lx, r ++ ['\n']) := by
  cases s with
  | nil => cases h
  | cons c r1 =>
    rw [show ((c :: r1) ++ ['\n'] : List Char) = c :: (r1 ++ ['\n']) from rfl]
    rw [parseNumber.eq_def] at h ⊢
    by_cases hm : c = '-'
    · simp only [hm, if_true, reduceIte] at h ⊢
      cases r1 with
      | nil => cases h
      | cons d r2 =>
        rw [show ((d :: r2) ++ ['\n'] : List Char) = d :: (r2 ++ ['\n']) from rfl]
        by_cases hd0 : d = '0'
        · simp only [hd0, if_true, reduceIte] at h ⊢
          exact parseFracPart_ext _ _ lx r h
        · simp only [hd0, Bool.false_eq_true, if_false, reduceIte] at h ⊢
          by_cases hd : d.isDigit = true
          · simp only [hd, if_true, reduceIte] at h ⊢
            have ht := takeDigs_append_nl r2
            rw [ht.1, ht.2]
            exact parseFracPart_ext _ _ lx r h
          · simp only [hd, if_false, reduceIte] at h
            cases h
    · simp only [hm, Bool.false_eq_true, if_false, reduceIte] at h ⊢
      by_cases hc0 : c = '0'
      · simp only [hc0, if_true, reduceIte] at h ⊢
        exact parseFracPart_ext _ _ lx r h
      · simp only [hc0, Bool.false_eq_true, if_false, reduceIte] at h ⊢
        by_cases hc : c.isDigit = true
        · simp only [hc, if_true, reduceIte] at h ⊢
          have ht := takeDigs_append_nl r1
          rw [ht.1, ht.2]
          exact parseFracPart_ext _ _ lx r h
        · simp only [hc, if_false, reduceIte] at h
          cases h

theorem parserExt : ∀ n : Nat,
    (∀ k s v r, parseValue n s = some (v, r) →
       parseValue (n + k) (s ++ ['\n']) = some (v, r ++ ['\n'])) ∧
    (∀ k s vs r, parseElems n s = some (vs, r) →
       parseElems (n + k) (s ++ ['\n']) = some (vs, r ++ ['\n'])) ∧
    (∀ k s ms r, parseMembers n s = some (ms, r) →
       parseMembers (n + k) (s ++ ['\n']) = some (ms, r ++ ['\n'])) := by
  intro n
  induction n with
  | zero =>
    refine ⟨?_, ?_, ?_⟩ <;> intro k s a b h <;> cases h
  | succ m ih =>
    obtain ⟨ihV, ihE, ihM⟩ := ih
    have harith : ∀ k : Nat, m + 1 + k = (m + k) + 1 := by omega
    refine ⟨?_, ?_, ?_⟩
    · -- parseValue
      intro k s v r h
      rw [harith k]
      simp only [parseValue] at h
      simp only [parseValue]
      by_cases h1 : LNULL.isPrefixOf s = true
      · rw [if_pos h1] at h
        cases h
        rw [if_pos (isPrefixOf_append_of _ _ _ h1),
          drop_append_of_le 4 s ['\n'] (prefix_length_le _ _ h1)]
      · rw [if_neg h1] at h
        rw [lit_isPrefixOf_append_nl LNULL s (by decide), if_neg h1]
        by_cases h2 : LTRUE.isPrefixOf s = true
        · rw [if_pos h2] at h
          cases h
          rw [if_pos (isPrefixOf_append_of _ _ _ h2),
            drop_append_of_le 4 s ['\n'] (prefix_length_le _ _ h2)]
        · rw [if_neg h2] at h
          rw [lit_isPrefixOf_append_nl LTRUE s (by decide), if_neg h2]
          by_cases h3 : LFALSE.isPrefixOf s = true
          · rw [if_pos h3] at h
            cases h
            rw [if_pos (isPrefixOf_append_of _ _ _ h3),
              drop_append_of_le 5 s ['\n'] (prefix_length_le _ _ h3)]
          · rw [if_neg h3] at h
            rw [lit_isPrefixOf_append_nl LFALSE s (by decide), if_neg h3]
            cases s with
            | nil => simp at h
            | cons c rest =>
              rw [show ((c :: rest) ++ ['\n'] : List Char) = c :: (rest ++ ['\n']) from rfl]
              by_cases hq : c = '"'
              · simp only [hq, if_true, reduceIte] at h ⊢
                cases hsb : strBody rest with
                | none => simp only [hsb] at h; exact Option.noConfusion h
                | some p =>
                  obtain ⟨cs, r1⟩ := p
                  simp only [hsb] at h
                  cases h
                  simp only [strBody_ext ['\n'] rest cs r hsb]
              · simp only [hq, Bool.false_eq_true, if_false, reduceIte] at h ⊢
                by_cases hbr : c = '['
                · simp only [hbr, if_true, reduceIte] at h ⊢
                  cases hsk : skipJws rest with
                  | nil => simp only [hsk] at h; exact Option.noConfusion h
                  | cons d r2 =>
                    simp only [hsk] at h
                    have hne : skipJws rest ≠ [] := by rw [hsk]; simp
                    rw [skipJws_append rest ['\n'] hne, hsk]
                    simp only [List.cons_append]
                    by_cases hd : d = ']'
                    · simp only [hd, if_true, reduceIte] at h ⊢
                      cases h
                      rfl
                    · simp only [hd, Bool.false_eq_true, if_false, reduceIte] at h ⊢
                      cases hpe : parseElems m (d :: r2) with
                      | none => simp only [hpe] at h; exact Option.noConfusion h
                      | some p =>
                        obtain ⟨es, r3⟩ := p
                        simp only [hpe] at h
                        cases h
                        have hE := ihE k (d :: r2) es r hpe
                        rw [List.cons_append] at hE
                        simp only [hE]
                · simp only [hbr, Bool.false_eq_true, if_false, reduceIte] at h ⊢
                  by_cases hob : c = '{'
                  · simp only [hob, if_true, reduceIte] at h ⊢
                    cases hsk : skipJws rest with
                    | nil => simp only [hsk] at h; exact Option.noConfusion h
                    | cons d r2 =>
                      simp only [hsk] at h
                      have hne : skipJws rest ≠ [] := by rw [hsk]; simp
                      rw [skipJws_append rest ['\n'] hne, hsk]
                      simp only [List.cons_append]
                      by_cases hd : d = '}'
                      · simp only [hd, if_true, reduceIte] at h ⊢
                        cases h
                        rfl
                      · simp only [hd, Bool.false_eq_true, if_false, reduceIte] at h ⊢
                        cases hpm : parseMembers m (d :: r2) with
                        | none => simp only [hpm] at h; exact Option.noConfusion h
                        | some p =>
                          obtain ⟨ms, r3⟩ := p
                          simp only [hpm] at h
                          cases h
                          have hM := ihM k (d :: r2) ms r hpm
                          rw [List.cons_append] at hM
                          simp only [hM]
                  · simp only [hob, Bool.false_eq_true, if_false, reduceIte] at h ⊢
                    cases hpn : parseNumber (c :: rest) with
                    | none => simp only [hpn] at h; exact Option.noConfusion h
                    | some p =>
                      obtain ⟨lx, r1⟩ := p
                      simp only [hpn] at h
                      cases h
                      have hN := parseNumber_ext (c :: rest) lx r hpn
                      rw [List.cons_append] at hN
                      simp only [hN]
    · -- parseElems
      intro k s vs r h
      rw [harith k]
      simp only [parseElems] at h
      rw [parseElems]
      cases hpv : parseValue m s with
      | none => simp only [hpv] at h; exact Option.noConfusion h
      | some p =>
        obtain ⟨v1, r1⟩ := p
        simp only [hpv] at h
        simp only [ihV k s v1 r1 hpv]
        cases hsk : skipJws r1 with
        | nil => simp only [hsk] at h; exact Option.noConfusion h
        | cons c r2 =>
          simp only [hsk] at h
          have hne : skipJws r1 ≠ [] := by rw [hsk]; simp
          rw [skipJws_append r1 ['\n'] hne, hsk]
          simp only [List.cons_append]
          by_cases hc : c = ','
          · simp only [hc, if_true, reduceIte] at h ⊢
            cases hpe : parseElems m (skipJws r2) with
            | none => simp only [hpe] at h; exact Option.noConfusion h
            | some p2 =>
              obtain ⟨vs2, r3⟩ := p2
              simp only [hpe] at h
              cases h
              have hne2 : skipJws r2 ≠ [] := by
                intro he
                rw [he, parseElems_nil] at hpe
                cases hpe
              rw [skipJws_append r2 ['\n'] hne2]
              simp only [ihE k (skipJws r2) vs2 r hpe]
          · simp only [hc, Bool.false_eq_true, if_false, reduceIte] at h ⊢
            by_cases hb : c = ']'
            · simp only [hb, if_true, reduceIte] at h ⊢
              cases h
              rfl
            · simp only [hb, Bool.false_eq_true, if_false, reduceIte] at h
              exact Option.noConfusion h
    · -- parseMembers
      intro k s ms r h
      rw [harith k]
      simp only [parseMembers] at h
      simp only [parseMembers]
      cases s with
      | nil => simp at h
      | cons c rest =>
        rw [show ((c :: rest) ++ ['\n'] : List Char) = c :: (rest ++ ['\n']) from rfl]
        by_cases hq : c = '"'
        · simp only [hq, if_true, reduceIte] at h ⊢
          cases hsb : strBody rest with
          | none => simp only [hsb] at h; exact Option.noConfusion h
          | some p =>
            obtain ⟨key, r1⟩ := p
            simp only [hsb] at h
            simp only [strBody_ext ['\n'] rest key r1 hsb]
            cases hsk : skipJws r1 with
            | nil => simp only [hsk] at h; exact Option.noConfusion h
            | cons d r2 =>
              simp only [hsk] at h
              have hne : skipJws r1 ≠ [] := by rw [hsk]; simp
              rw [skipJws_append r1 ['\n'] hne, hsk]
              simp only [List.cons_append]
              by_cases hd : d = ':'
              · simp only [hd, if_true, reduceIte] at h ⊢
                cases hpv : parseValue m (skipJws r2) with
                | none => simp only [hpv] at h; exact Option.noConfusion h
                | some p2 =>
                  obtain ⟨v1, r3⟩ := p2
                  simp only [hpv] at h
                  have hne2 : skipJws r2 ≠ [] := by
                    intro he
                    rw [he, parseValue_nil] at hpv
                    cases hpv
                  rw [skipJws_append r2 ['\n'] hne2]
                  simp only [ihV k (skipJws r2) v1 r3 hpv]
                  cases hsk3 : skipJws r3 with
                  | nil => simp only [hsk3] at h; exact Option.noConfusion h
                  | cons e r4 =>
                    simp only [hsk3] at h
                    have hne3 : skipJws r3 ≠ [] := by rw [hsk3]; simp
                    rw [skipJws_append r3 ['\n'] hne3, hsk3]
                    simp only [List.cons_append]
                    by_cases he : e = ','
                    · simp only [he, if_true, reduceIte] at h ⊢
                      cases hpm : parseMembers m (skipJws r4) with
                      | none => simp only [hpm] at h; exact Option.noConfusion h
                      | some p3 =>
                        obtain ⟨ms2, r5⟩ := p3
                        simp only [hpm] at h
                        cases h
                        have hne4 : skipJws r4 ≠ [] := by
                          intro he2
                          rw [he2, parseMembers_nil] at hpm
                          cases hpm
                        rw [skipJws_append r4 ['\n'] hne4]
                        simp only [ihM k (skipJws r4) ms2 r hpm]
                    · simp only [he, Bool.false_eq_true, if_false, reduceIte] at h ⊢
                      by_cases hcb : e = '}'
                      · simp only [hcb, if_true, reduceIte] at h ⊢
                        cases h
                        rfl
                      · simp only [hcb, Bool.false_eq_true, if_false, reduceIte] at h
                        exact Option.noConfusion h
              · simp only [hd, Bool.false_eq_true, if_false, reduceIte] at h
                exact Option.noConfusion h
        · simp only [hq, Bool.false_eq_true, if_false, reduceIte] at h
          exact Option.noConfusion h

theorem jsonParse_nl (t : List Char) (v : Json) (h : jsonParse t = some v) :
    jsonParse ('\n' :: (t ++ ['\n'])) = some v := by
  unfold jsonParse at h ⊢
  cases hp : parseValue (t.length + 1) (skipJws t) with
  | none =>
    simp only [hp] at h
    exact Option.noConfusion h
  | some p =>
    obtain ⟨v1, rest⟩ := p
    simp only [hp] at h
    by_cases hall : rest.all jws = true
    · rw [if_pos hall] at h
      have hv : v1 = v := by cases h; rfl
      subst hv
      have hne : skipJws t ≠ [] := by
        intro he
        rw [he, parseValue_nil] at hp
        exact Option.noConfusion hp
      have hskip0 : skipJws ('\n' :: (t ++ ['\n'])) = skipJws t ++ ['\n'] := by
        show List.dropWhile jws ('\n' :: (t ++ ['\n'])) = _
        rw [List.dropWhile_cons, if_pos (by decide)]
        exact skipJws_append t ['\n'] hne
      have hlen : ('\n' :: (t ++ ['\n'])).length + 1 = (t.length + 1) + 2 := by
        simp [List.length_append]
      rw [hskip0, hlen]
      have hext := (parserExt (t.length + 1)).1 2 (skipJws t) v1 rest hp
      simp only [hext]
      have hall2 : (rest ++ ['\n']).all jws = true := by
        rw [List.all_append]
        simp [hall]
        decide
      rw [if_pos hall2]
    · rw [if_neg hall] at h
      exact Option.noConfusion h

theorem hasFence_cons_ne (c : Char) (l : List Char) (hc : ¬ c = bq) :
    hasFence (c :: l) = hasFence l := by
  cases l with
  | nil => rfl
  | cons a l' =>
    cases l' with
    | nil => rfl
    | cons b rest => simp [hasFence, hc]

theorem hasFence_append_nl (t : List Char) (h : hasFence t = false) :
    hasFence (t ++ ['\n']) = false := by
  induction t with
  | nil => decide
  | cons c ta ih =>
    cases ta with
    | nil => simp [hasFence]
    | cons d tb =>
      cases tb with
      | nil =>
        show hasFence [c, d, '\n'] = false
        simp [hasFence]
        intro _ _
        decide
      | cons e tc =>
        simp only [hasFence] at h
        rw [Bool.or_eq_false_iff] at h
        have ihh := ih h.2
        rw [show ((d :: e :: tc) ++ ['\n'] : List Char)
          = d :: e :: (tc ++ ['\n']) from rfl] at ihh
        show hasFence (c :: d :: e :: (tc ++ ['\n'])) = false
        simp only [hasFence, h.1, ihh]
        decide

theorem splitGo_fence_seg (m : List Char) : ∀ (rest acc : List Char),
    hasFence m = false → m.getLast? ≠ some bq →
    splitGo (m ++ bq :: bq :: bq :: rest) acc
      = (acc.reverse ++ m) :: splitGo rest [] := by
  induction m with
  | nil =>
    intro rest acc _ _
    show splitGo (bq :: bq :: bq :: rest) acc = (acc.reverse ++ []) :: splitGo rest []
    simp [splitGo]
  | cons c0 ma ih =>
    intro rest acc hm hl
    cases ma with
    | nil =>
      have hc0 : ¬ c0 = bq := by
        intro he
        exact hl (by simp [he])
      show splitGo (c0 :: bq :: bq :: bq :: rest) acc
        = (acc.reverse ++ [c0]) :: splitGo rest []
      simp [splitGo, hc0]
    | cons c1 mb =>
      cases mb with
      | nil =>
        have hc1 : ¬ c1 = bq := by
          intro he
          exact hl (by simp [he])
        show splitGo (c0 :: c1 :: bq :: bq :: bq :: rest) acc
          = (acc.reverse ++ [c0, c1]) :: splitGo rest []
        simp [splitGo, hc1]
      | cons c2 mc =>
        simp only [hasFence] at hm
        rw [Bool.or_eq_false_iff] at hm
        have hl2 : (c1 :: c2 :: mc).getLast? ≠ some bq := by
          rw [← List.getLast?_cons_cons]
          exact hl
        have hstep := ih rest (c0 :: acc) hm.2 hl2
        rw [show ((c1 :: c2 :: mc) ++ bq :: bq :: bq :: rest : List Char)
          = c1 :: c2 :: (mc ++ bq :: bq :: bq :: rest) from rfl] at hstep
        show splitGo (c0 :: c1 :: c2 :: (mc ++ bq :: bq :: bq :: rest)) acc
          = (acc.reverse ++ (c0 :: c1 :: c2 :: mc)) :: splitGo rest []
        rw [splitGo.eq_def]
        simp only [hm.1, Bool.false_eq_true, if_false, reduceIte]
        rw [hstep]
        simp [List.reverse_cons, List.append_assoc]

theorem dropTail_nonws (l : List Char) (c : Char) (hc : pyws c = false) :
    ((l ++ [c]).reverse.dropWhile pyws).reverse = l ++ [c] := by
  have hrev : (l ++ [c]).reverse = c :: l.reverse := by
    rw [List.reverse_append]
    rfl
  rw [hrev, List.dropWhile_cons, if_neg (by simp [hc])]
  rw [List.reverse_cons, List.reverse_reverse]

theorem pyStrip_fenceWrap (t : List Char) : pyStrip (fenceWrap t) = fenceWrap t := by
  unfold pyStrip
  have hhead : (fenceWrap t).dropWhile pyws = fenceWrap t := by
    show List.dropWhile pyws (bq :: (("``json\n".data ++ t) ++ "\n```".data))
      = bq :: (("``json\n".data ++ t) ++ "\n```".data)
    rw [List.dropWhile_cons, if_neg (by decide)]
  rw [hhead]
  have hsplit : fenceWrap t = (("```json\n".data ++ t) ++ "\n``".data) ++ [bq] := by
    show ("```json\n".data ++ t) ++ "\n```".data = _
    rw [show ("\n```".data : List Char) = "\n``".data ++ [bq] from rfl,
      ← List.append_assoc]
  rw [hsplit]
  exact dropTail_nonws _ bq (by decide)

theorem fence_isPrefixOf_fenceWrap (t : List Char) :
    FENCE.isPrefixOf (fenceWrap t) = true := by
  show FENCE.isPrefixOf (bq :: bq :: bq :: (("json\n".data ++ t) ++ "\n```".data)) = true
  simp [FENCE, List.isPrefixOf]

theorem stripFences_fenceWrap (t : List Char) (hnf : hasFence t = false) :
    stripFences (fenceWrap t) = '\n' :: (t ++ ['\n']) := by
  unfold stripFences
  rw [pyStrip_fenceWrap, if_pos (fence_isPrefixOf_fenceWrap t)]
  have hm : hasFence ("json\n".data ++ (t ++ ['\n'])) = false := by
    show hasFence ('j' :: 's' :: 'o' :: 'n' :: '\n' :: (t ++ ['\n'])) = false
    rw [hasFence_cons_ne _ _ (by decide), hasFence_cons_ne _ _ (by decide),
      hasFence_cons_ne _ _ (by decide), hasFence_cons_ne _ _ (by decide),
      hasFence_cons_ne _ _ (by decide)]
    exact hasFence_append_nl t hnf
  have hlast : ("json\n".data ++ (t ++ ['\n'])).getLast? ≠ some bq := by
    rw [show ("json\n".data ++ (t ++ ['\n']) : List Char)
      = ("json\n".data ++ t) ++ ['\n'] from by rw [List.append_assoc]]
    rw [List.getLast?_concat]
    simp
    decide
  have harr : (("json\n".data ++ t) ++ "\n```".data : List Char)
      = ("json\n".data ++ (t ++ ['\n'])) ++ bq :: bq :: bq :: [] := by
    simp only [List.append_assoc]
    rfl
  have hsplit1 : splitGo (fenceWrap t) []
      = [] :: splitGo ((("json\n".data ++ (t ++ ['\n']))) ++ bq :: bq :: bq :: []) [] := by
    show splitGo (bq :: bq :: bq :: (("json\n".data ++ t) ++ "\n```".data)) [] = _
    rw [splitGo.eq_def]
    rw [harr]
    simp
  rw [hsplit1, splitGo_fence_seg _ [] [] hm hlast]
  have hgetd : (([] : List Char) :: (([].reverse ++ ("json\n".data ++ (t ++ ['\n'])))
      :: splitGo [] [])).getD 1 [] = "json\n".data ++ (t ++ ['\n']) := by
    simp
  rw [hgetd]
  rw [if_pos (by
    show ("json".data : List Char).isPrefixOf
      ('j' :: 's' :: 'o' :: 'n' :: '\n' :: (t ++ ['\n'])) = true
    simp [List.isPrefixOf])]
  show ('j' :: 's' :: 'o' :: 'n' :: '\n' :: (t ++ ['\n']) : List Char).drop 4
    = '\n' :: (t ++ ['\n'])
  rfl

/-- Claim C4 counterexample: a valid JSON object text that itself contains
the ``` delimiter parses on its own, but its fenced wrapping splits at the
inner delimiter and fails to parse — wrapped and unwrapped replies are not
parsed identically for every valid JSON object text. -/
theorem claim_C4_counterexample :
    jsonParse ("\x7b\"msg\": \"a```b\"\x7d").data
        = some (Json.obj [("msg".data, Json.str "a```b".data)]) ∧
      parseReply (fenceWrap ("\x7b\"msg\": \"a```b\"\x7d").data) = none := by
  constructor
  · rfl
  · rfl

/-- Claim C4 (amended): for every valid JSON object text that does not
itself contain the three-backquote fence delimiter, parsing the reply
wrapped in a `json`-tagged markdown code fence yields the same parsed
value as parsing the bare text. -/
theorem claim_C4 (t : List Char) (v : Json)
    (hv : jsonParse t = some v) (hnf : hasFence t = false) :
    parseReply (fenceWrap t) = some v := by
  unfold parseReply
  rw [stripFences_fenceWrap t hnf]
  exact jsonParse_nl t v hv

theorem claim_C4_witness :
    jsonParse ("\x7b\"action\": \"list\"\x7d").data
        = some (Json.obj [("action".data, Json.str "list".data)]) ∧
      hasFence ("\x7b\"action\": \"list\"\x7d").data = false ∧
      parseReply (fenceWrap ("\x7b\"action\": \"list\"\x7d").data)
        = some (Json.obj [("action".data, Json.str "list".data)]) :=
  ⟨rfl, by decide,
   claim_C4 ("\x7b\"action\": \"list\"\x7d").data
     (Json.obj [("action".data, Json.str "list".data)]) rfl (by decide)⟩
